import Mathlib

/-!
# Dense matrix product: scalar reference, MSL kernel and Metal dispatch

A shallow embedding of `dot_product.cpp`.

* Buffers of floats are lists over an arbitrary carrier `α` with `0`, `+`, `*`
  (no algebraic law is assumed unless a theorem asks for a semiring).  Reading
  an element is checked (`buf[j]?`), writing is `store`; an access outside the
  buffer, which is undefined behaviour in the source, makes the run `none`.
* `size_t` and `uint32_t` arithmetic is arithmetic on `Nat` reduced modulo
  `2 ^ 64` and `2 ^ 32`.
* The three buffers of a call are distinct objects (the list model has no
  aliasing); `cpu_dot_mem` is a second embedding of `cpu_dot` on one flat
  address space, where aliasing is possible, used for the frame property.
-/

namespace DotProduct

/-! ## Machine integers -/

/-- Reduction of a natural number to the range of `size_t` (64 bit). -/
def size_t (x : Nat) : Nat := x % 2 ^ 64

/-- Reduction of a natural number to the range of `uint32_t`. -/
def uint32_t (x : Nat) : Nat := x % 2 ^ 32

/-- Largest value of `size_t`; no object has more elements than this. -/
def SIZE_MAX : Nat := 2 ^ 64 - 1

/-! ## Buffers -/

/-- Checked write `buf[j] = v`: `none` when `j` is outside the buffer. -/
def store {α : Type} (buf : List α) (j : Nat) (v : α) : Option (List α) :=
  if j < buf.length then some (buf.set j v) else none

/-! ## `cpu_dot` (lines 17-32) -/

/-- Index `A_cols * row + i` of line 27, in `size_t`. -/
def cpu_dot.A_index (A_cols row i : Nat) : Nat := size_t (size_t (A_cols * row) + i)

/-- Index `OUT_cols * i + col` of line 27, in `size_t`. -/
def cpu_dot.B_index (OUT_cols i col : Nat) : Nat := size_t (size_t (OUT_cols * i) + col)

/-- Index `OUT_cols * row + col` of line 29, in `size_t`. -/
def cpu_dot.OUT_index (OUT_cols row col : Nat) : Nat := size_t (size_t (OUT_cols * row) + col)

/-- Body of the innermost loop, line 27:
`val += A[A_cols * row + i] * B[OUT_cols * i + col]`. -/
def cpu_dot.body {α : Type} [Add α] [Mul α] (A B : List α) (A_cols OUT_cols row col : Nat)
    (val : α) (i : Nat) : Option α := do
  let a ← A[cpu_dot.A_index A_cols row i]?
  let b ← B[cpu_dot.B_index OUT_cols i col]?
  pure (val + a * b)

/-- Body of the loop over `col`, lines 25-29: accumulate `val` from `0.0` over
`i = 0, …, m - 1`, then `OUT[OUT_cols * row + col] = val`. -/
def cpu_dot.cell {α : Type} [Zero α] [Add α] [Mul α] (A B : List α) (A_cols OUT_cols row : Nat)
    (OUT : List α) (col : Nat) : Option (List α) := do
  let m := A_cols
  let val ← (List.range m).foldlM (cpu_dot.body A B A_cols OUT_cols row col) (0 : α)
  store OUT (cpu_dot.OUT_index OUT_cols row col) val

/-- The function `cpu_dot(A, B, OUT, A_cols, OUT_rows, OUT_cols)`: the loop over
`row < rows` around the loop over `col < cols`.  The result is the final
content of `OUT`. -/
def cpu_dot {α : Type} [Zero α] [Add α] [Mul α] (A B OUT : List α)
    (A_cols OUT_rows OUT_cols : Nat) : Option (List α) :=
  let rows := OUT_rows
  let cols := OUT_cols
  (List.range rows).foldlM
    (fun OUT row => (List.range cols).foldlM (cpu_dot.cell A B A_cols OUT_cols row) OUT) OUT

/-- The function `cpu_dot` on one flat memory of floats, where the pointers
`A`, `B` and `OUT` are addresses counted in floats and `p[j]` is the cell at
address `p + j`.  Every address is a cell of the memory, so the function is
total; the result is the memory after the call. -/
def cpu_dot_mem {α : Type} [Zero α] [Add α] [Mul α] (mem : Nat → α) (A B OUT : Nat)
    (A_cols OUT_rows OUT_cols : Nat) : Nat → α :=
  let rows := OUT_rows
  let cols := OUT_cols
  let m := A_cols
  (List.range rows).foldl
    (fun mem row => (List.range cols).foldl
      (fun mem col =>
        let val := (List.range m).foldl
          (fun val i => val + mem (A + cpu_dot.A_index A_cols row i)
            * mem (B + cpu_dot.B_index OUT_cols i col)) (0 : α)
        Function.update mem (OUT + cpu_dot.OUT_index OUT_cols row col) val) mem) mem

/-! ## The MSL kernel `dot` (lines 52-71) -/

/-- The MSL vector type `uint2`, the type of `thread_position_in_grid`. -/
structure uint2 where
  x : Nat
  y : Nat
  deriving DecidableEq

namespace msl

/-- Index `A_cols * gid.y + i` of line 67, in `uint32_t`. -/
def dot.A_index (A_cols : Nat) (gid : uint2) (i : Nat) : Nat :=
  uint32_t (uint32_t (A_cols * gid.y) + i)

/-- Index `OUT_cols * i + gid.x` of line 67, in `uint32_t`. -/
def dot.B_index (OUT_cols i : Nat) (gid : uint2) : Nat :=
  uint32_t (uint32_t (OUT_cols * i) + gid.x)

/-- Index `OUT_cols * gid.y + gid.x` of line 70, in `uint32_t`. -/
def dot.OUT_index (OUT_cols : Nat) (gid : uint2) : Nat :=
  uint32_t (uint32_t (OUT_cols * gid.y) + gid.x)

/-- Body of the kernel loop, line 67:
`val += A[A_cols * gid.y + i] * B[OUT_cols * i + gid.x]`. -/
def dot.body {α : Type} [Add α] [Mul α] (A B : List α) (A_cols OUT_cols : Nat) (gid : uint2)
    (val : α) (i : Nat) : Option α := do
  let a ← A[dot.A_index A_cols gid i]?
  let b ← B[dot.B_index OUT_cols i gid]?
  pure (val + a * b)

set_option linter.unusedVariables false in
/-- One invocation of the kernel `dot` at grid position `gid`.  The parameter
`OUT_raws` is declared by the kernel and never read. -/
def dot {α : Type} [Zero α] [Add α] [Mul α] (A B OUT : List α)
    (A_cols OUT_raws OUT_cols : Nat) (gid : uint2) : Option (List α) := do
  let val ← (List.range A_cols).foldlM (dot.body A B A_cols OUT_cols gid) (0 : α)
  store OUT (dot.OUT_index OUT_cols gid) val

end msl

/-! ## `metal::dot` (lines 101-130) -/

namespace metal

/-- Thread positions of a grid `MTL::Size::Make(width, height, 1)`, row by row. -/
def gridPositions (width height : Nat) : List uint2 :=
  (List.range height).flatMap (fun y => (List.range width).map (fun x => uint2.mk x y))

/-- Modelled from the spec: the Metal call `dispatchThreads(gridSize, threadsSize)`
followed by `commit` and `waitUntilCompleted` runs the kernel once for every
position of the grid, with no defined order between invocations; `order` is the
sequence in which the device performs them (a rearrangement of
`gridPositions`).  The thread-group size cuts the grid into groups and does not
change which positions run. -/
def dispatchThreads {α : Type} (kernel : List α → uint2 → Option (List α))
    (order : List uint2) (OUT : List α) : Option (List α) :=
  order.foldlM kernel OUT

/-- The thread-group size of lines 120-122: `w = threadExecutionWidth()`,
`h = maxTotalThreadsPerThreadgroup() / w`, size `(w, h, 1)`.  The two device
values are parameters; dividing by `w = 0` is undefined and gives `none`. -/
def threadsSize (w T : Nat) : Option (Nat × Nat × Nat) :=
  if w = 0 then none else
    let h := T / w
    some (w, h, 1)

/-- The method `metal::dot`: binds the three buffers and the three dimensions
(values of `uint32_t`) and dispatches the kernel over the grid
`(OUT_cols, OUT_rows, 1)`, in groups of the size `threadsSize`.  The source has
no statement that inspects a buffer length.  The result is the final content of
`OUT`. -/
def dot {α : Type} [Zero α] [Add α] [Mul α] (order : List uint2) (A B OUT : List α)
    (A_cols OUT_rows OUT_cols : Nat) : Option (List α) :=
  dispatchThreads (fun OUT gid => msl.dot A B OUT A_cols OUT_rows OUT_cols gid) order OUT

/-- An execution order of the dispatch of `metal::dot`: every position of the
grid `(OUT_cols, OUT_rows, 1)` exactly once. -/
def IsOrder (order : List uint2) (OUT_rows OUT_cols : Nat) : Prop :=
  order.Perm (gridPositions OUT_cols OUT_rows)

end metal

/-! ## `main` (lines 142-154) -/

namespace main

/-- Line 144. -/
def A_rows : Nat := 1000

/-- Line 145. -/
def A_cols : Nat := 1000

/-- Line 148. -/
def B_rows : Nat := 1000

/-- Line 149. -/
def B_cols : Nat := 100

/-- Line 152. -/
def OUT_rows : Nat := 1000

/-- Line 153. -/
def OUT_cols : Nat := 100

end main

/-! ## The mathematical product -/

/-- The sum `Σ_{i<k} A[k*r+i] * B[n*i+c]`, taken from `0` with `i` ascending. -/
def dotSum {α : Type} [Zero α] [Add α] [Mul α] (A B : List α) (k n r c : Nat) : α :=
  (List.range k).foldl (fun acc i => acc + A.getD (k * r + i) 0 * B.getD (n * i + c) 0) 0

/-! ## Sequences of cell writes

Both `cpu_dot` and the dispatched kernel are a sequence of steps, each of
which computes a value from `A` and `B` alone and stores it in one cell of
`OUT`.  The definitions below name the parts of such a sequence. -/

/-- One step: compute `val p`, store it at `idx p`. -/
def cellStep {α P : Type} (val : P → Option α) (idx : P → Nat) (OUT : List α) (p : P) :
    Option (List α) :=
  (val p).bind (fun v => store OUT (idx p) v)

/-- The effect of a list of writes `(index, value)`, performed from the left. -/
def applyWrites {α : Type} (OUT : List α) (ws : List (Nat × α)) : List α :=
  ws.foldl (fun O w => O.set w.1 w.2) OUT

/-- Accumulation `Σ_i A[ia i] * B[ib i]` from `0` with `i` ascending, for
arbitrary index functions. -/
def accSum {α : Type} [Zero α] [Add α] [Mul α] (A B : List α) (ia ib : Nat → Nat) (k : Nat) : α :=
  (List.range k).foldl (fun acc i => acc + A.getD (ia i) 0 * B.getD (ib i) 0) 0

/-- The value a `cpu_dot` cell receives (lines 25-28), as a function of its
position `(col, row)`. -/
def cpu_dot.val {α : Type} [Zero α] [Add α] [Mul α] (A B : List α) (A_cols OUT_cols : Nat)
    (p : uint2) : Option α :=
  (List.range A_cols).foldlM (cpu_dot.body A B A_cols OUT_cols p.y p.x) (0 : α)

/-- The value one kernel invocation stores (lines 65-68), as a function of its
position. -/
def msl.dot.val {α : Type} [Zero α] [Add α] [Mul α] (A B : List α) (A_cols OUT_cols : Nat)
    (gid : uint2) : Option α :=
  (List.range A_cols).foldlM (msl.dot.body A B A_cols OUT_cols gid) (0 : α)

/-- The value of a `cpu_dot` cell with the indices as the code computes them. -/
def cpu_dot.sum {α : Type} [Zero α] [Add α] [Mul α] (A B : List α) (A_cols OUT_cols : Nat)
    (p : uint2) : α :=
  accSum A B (cpu_dot.A_index A_cols p.y) (fun i => cpu_dot.B_index OUT_cols i p.x) A_cols

/-- The value of a kernel invocation with the indices as the kernel computes them. -/
def msl.dot.sum {α : Type} [Zero α] [Add α] [Mul α] (A B : List α) (A_cols OUT_cols : Nat)
    (gid : uint2) : α :=
  accSum A B (msl.dot.A_index A_cols gid) (fun i => msl.dot.B_index OUT_cols i gid) A_cols

/-- One step of `cpu_dot_mem` (lines 25-29) at the position `(col, row)`. -/
def cpu_dot_mem.step {α : Type} [Zero α] [Add α] [Mul α] (A B OUT A_cols OUT_cols : Nat)
    (mem : Nat → α) (p : uint2) : Nat → α :=
  Function.update mem (OUT + cpu_dot.OUT_index OUT_cols p.y p.x)
    ((List.range A_cols).foldl
      (fun val i => val + mem (A + cpu_dot.A_index A_cols p.y i)
        * mem (B + cpu_dot.B_index OUT_cols i p.x)) (0 : α))

/-- An execution order that performs the position `p` last. -/
def orderEndingWith (width height : Nat) (p : uint2) : List uint2 :=
  (metal.gridPositions width height).erase p ++ [p]

/-! ## Large inputs

Matrices with more than `2 ^ 32` cells, on which the 32-bit indices of the
kernel wrap around. -/

/-- The column `1, 2, …, 65537`, a 65537×1 matrix. -/
def rowWeights : List Int := (List.range 65537).map (fun y => Int.ofNat (y + 1))

/-! ## Values of `float` that are not numbers

The element type of the source is `float`.  The fragment below has the floats
that are integers (on which sums and products of small magnitude are exact),
the two infinities and NaN, with the IEEE 754 sum and product. -/

/-- A float that is an integer, an infinity, or NaN. -/
inductive FloatVal where
  | fin (v : Int)
  | pinf
  | ninf
  | nan
  deriving DecidableEq

/-- The IEEE 754 sum: NaN absorbs, opposite infinities give NaN, an infinity
absorbs a finite term. -/
def FloatVal.add : FloatVal → FloatVal → FloatVal
  | .nan, _ => .nan
  | _, .nan => .nan
  | .pinf, .ninf => .nan
  | .ninf, .pinf => .nan
  | .pinf, _ => .pinf
  | _, .pinf => .pinf
  | .ninf, _ => .ninf
  | _, .ninf => .ninf
  | .fin a, .fin b => .fin (a + b)

/-- The infinity with the sign of `a * s`, for `a ≠ 0` and `s` the sign of an
infinity (`true` for `+∞`). -/
def FloatVal.signedInf (a : Int) (s : Bool) : FloatVal :=
  if (0 < a) = (s = true) then .pinf else .ninf

/-- The IEEE 754 product: NaN absorbs, zero times an infinity is NaN, and an
infinity times a non-zero factor is an infinity with the product of the signs. -/
def FloatVal.mul : FloatVal → FloatVal → FloatVal
  | .nan, _ => .nan
  | _, .nan => .nan
  | .fin a, .fin b => .fin (a * b)
  | .fin a, .pinf => if a = 0 then .nan else FloatVal.signedInf a true
  | .fin a, .ninf => if a = 0 then .nan else FloatVal.signedInf a false
  | .pinf, .fin b => if b = 0 then .nan else FloatVal.signedInf b true
  | .ninf, .fin b => if b = 0 then .nan else FloatVal.signedInf b false
  | .pinf, .pinf => .pinf
  | .ninf, .ninf => .pinf
  | .pinf, .ninf => .ninf
  | .ninf, .pinf => .ninf

instance : Zero FloatVal := ⟨FloatVal.fin 0⟩

instance : Add FloatVal := ⟨FloatVal.add⟩

instance : Mul FloatVal := ⟨FloatVal.mul⟩

/-! ## Lemmas on sequences of cell writes -/

section Writes

variable {α P : Type}

theorem applyWrites_cons (OUT : List α) (w : Nat × α) (ws : List (Nat × α)) :
    applyWrites OUT (w :: ws) = applyWrites (OUT.set w.1 w.2) ws := rfl

theorem applyWrites_append (OUT : List α) (ws₁ ws₂ : List (Nat × α)) :
    applyWrites OUT (ws₁ ++ ws₂) = applyWrites (applyWrites OUT ws₁) ws₂ := by
  simp [applyWrites, List.foldl_append]

theorem applyWrites_length (OUT : List α) (ws : List (Nat × α)) :
    (applyWrites OUT ws).length = OUT.length := by
  induction ws generalizing OUT with
  | nil => rfl
  | cons w ws ih => rw [applyWrites_cons, ih, List.length_set]

/-- A cell that no write addresses keeps its content. -/
theorem applyWrites_getElem?_of_not_mem (OUT : List α) (ws : List (Nat × α)) (j : Nat)
    (hj : ∀ w ∈ ws, w.1 ≠ j) : (applyWrites OUT ws)[j]? = OUT[j]? := by
  induction ws generalizing OUT with
  | nil => rfl
  | cons w ws ih =>
    rw [applyWrites_cons, ih _ (fun w' hw' => hj w' (List.mem_cons_of_mem _ hw'))]
    exact List.getElem?_set_ne (hj w (List.mem_cons_self _ _))

/-- The last write to a cell decides its content. -/
theorem applyWrites_getElem?_last (OUT : List α) (ws₁ ws₂ : List (Nat × α)) (j : Nat) (v : α)
    (hlen : j < OUT.length) (hj : ∀ w ∈ ws₂, w.1 ≠ j) :
    (applyWrites OUT (ws₁ ++ (j, v) :: ws₂))[j]? = some v := by
  rw [applyWrites_append, applyWrites_cons, applyWrites_getElem?_of_not_mem _ _ _ hj]
  exact List.getElem?_set_self (by rw [applyWrites_length]; exact hlen)

/-- When all writes to one cell carry the same value, a written cell holds
that value, whatever the order of the writes. -/
theorem applyWrites_getElem?_of_mem (OUT : List α) (ws : List (Nat × α)) (j : Nat) (v : α)
    (hlen : j < OUT.length) (hmem : (j, v) ∈ ws)
    (hcons : ∀ w ∈ ws, w.1 = j → w.2 = v) : (applyWrites OUT ws)[j]? = some v := by
  induction ws generalizing OUT with
  | nil => simp at hmem
  | cons w ws ih =>
    rw [applyWrites_cons]
    by_cases hin : ∃ w' ∈ ws, w'.1 = j
    · obtain ⟨w', hw', hw'j⟩ := hin
      have hv : w'.2 = v := hcons w' (List.mem_cons_of_mem _ hw') hw'j
      have hw'eq : w' = (j, v) := Prod.ext hw'j hv
      exact ih _ (by rw [List.length_set]; exact hlen) (hw'eq ▸ hw')
        (fun w'' hw'' => hcons w'' (List.mem_cons_of_mem _ hw''))
    · have hnot : ∀ w' ∈ ws, w'.1 ≠ j := fun w' hw' hw'j => hin ⟨w', hw', hw'j⟩
      rw [applyWrites_getElem?_of_not_mem _ _ _ hnot]
      have hw : w = (j, v) := by
        rcases List.mem_cons.1 hmem with h | h
        · exact h.symm
        · exact absurd rfl (hnot _ h)
      subst hw
      exact List.getElem?_set_self hlen

theorem store_eq_some {OUT : List α} {j : Nat} (v : α) (h : j < OUT.length) :
    store OUT j v = some (OUT.set j v) := by
  simp [store, h]

/-- A sequence of steps none of which leaves its buffer performs its writes. -/
theorem foldlM_cellStep (val : P → Option α) (idx : P → Nat) (v : P → α) (ps : List P)
    (OUT : List α) (h : ∀ p ∈ ps, val p = some (v p) ∧ idx p < OUT.length) :
    ps.foldlM (cellStep val idx) OUT = some (applyWrites OUT (ps.map (fun p => (idx p, v p)))) := by
  induction ps generalizing OUT with
  | nil => rfl
  | cons p ps ih =>
    obtain ⟨hv, hi⟩ := h p (List.mem_cons_self _ _)
    rw [List.foldlM_cons, List.map_cons, applyWrites_cons]
    simp only [cellStep, hv, Option.bind_eq_bind, Option.some_bind, store_eq_some _ hi]
    exact ih _ (fun q hq => by
      rw [List.length_set]; exact h q (List.mem_cons_of_mem _ hq))

theorem foldlM_flatMap {β γ : Type} (f : γ → β → Option γ) (g : P → List β) (l : List P)
    (init : γ) :
    (l.flatMap g).foldlM f init = l.foldlM (fun acc a => (g a).foldlM f acc) init := by
  induction l generalizing init with
  | nil => rfl
  | cons a l ih =>
    rw [List.flatMap_cons, List.foldlM_append, List.foldlM_cons]
    cases h : List.foldlM f init (g a) with
    | none => simp
    | some c => simpa using ih c

/-- A loop whose body always succeeds is a pure fold. -/
theorem foldlM_eq_some_foldl {β γ : Type} (f : γ → β → Option γ) (g : γ → β → γ) (l : List β)
    (init : γ) (h : ∀ b ∈ l, ∀ c, f c b = some (g c b)) :
    l.foldlM f init = some (l.foldl g init) := by
  induction l generalizing init with
  | nil => rfl
  | cons b l ih =>
    rw [List.foldlM_cons, h b (List.mem_cons_self _ _), List.foldl_cons]
    simpa using ih _ (fun b' hb' => h b' (List.mem_cons_of_mem _ hb'))

theorem applyWrites_map_getElem?_of_mem (idx : P → Nat) (v : P → α) (ps : List P) (OUT : List α)
    (p : P) (hp : p ∈ ps) (hlen : idx p < OUT.length)
    (hcons : ∀ q ∈ ps, idx q = idx p → v q = v p) :
    (applyWrites OUT (ps.map (fun p => (idx p, v p))))[idx p]? = some (v p) := by
  apply applyWrites_getElem?_of_mem _ _ _ _ hlen
  · exact List.mem_map.2 ⟨p, hp, rfl⟩
  · intro w hw hwj
    obtain ⟨q, hq, rfl⟩ := List.mem_map.1 hw
    exact hcons q hq hwj

theorem applyWrites_map_getElem?_of_not_mem (idx : P → Nat) (v : P → α) (ps : List P)
    (OUT : List α) (j : Nat) (hj : ∀ p ∈ ps, idx p ≠ j) :
    (applyWrites OUT (ps.map (fun p => (idx p, v p))))[j]? = OUT[j]? := by
  apply applyWrites_getElem?_of_not_mem
  intro w hw
  obtain ⟨q, hq, rfl⟩ := List.mem_map.1 hw
  exact hj q hq

/-- Writes that never put two different values in one cell may be performed
in any order. -/
theorem applyWrites_map_perm (idx : P → Nat) (v : P → α) (ps ps' : List P) (OUT : List α)
    (hperm : ps.Perm ps') (hlen : ∀ p ∈ ps, idx p < OUT.length)
    (hcons : ∀ p ∈ ps, ∀ q ∈ ps, idx q = idx p → v q = v p) :
    applyWrites OUT (ps.map (fun p => (idx p, v p)))
      = applyWrites OUT (ps'.map (fun p => (idx p, v p))) := by
  apply List.ext_getElem?
  intro j
  by_cases hj : ∃ p ∈ ps, idx p = j
  · obtain ⟨p, hp, rfl⟩ := hj
    rw [applyWrites_map_getElem?_of_mem idx v ps OUT p hp (hlen p hp) (hcons p hp),
      applyWrites_map_getElem?_of_mem idx v ps' OUT p (hperm.mem_iff.1 hp) (hlen p hp)
        (fun q hq => hcons p hp q (hperm.mem_iff.2 hq))]
  · have h1 : ∀ p ∈ ps, idx p ≠ j := fun p hp hpj => hj ⟨p, hp, hpj⟩
    have h2 : ∀ p ∈ ps', idx p ≠ j := fun p hp => h1 p (hperm.mem_iff.2 hp)
    rw [applyWrites_map_getElem?_of_not_mem idx v ps OUT j h1,
      applyWrites_map_getElem?_of_not_mem idx v ps' OUT j h2]

end Writes

/-! ## Index arithmetic -/

theorem size_t_le (x : Nat) : size_t x ≤ x := Nat.mod_le _ _

theorem uint32_t_le (x : Nat) : uint32_t x ≤ x := Nat.mod_le _ _

theorem size_t_mul_add_le (a b c : Nat) : size_t (size_t (a * b) + c) ≤ a * b + c :=
  Nat.le_trans (size_t_le _) (Nat.add_le_add_right (size_t_le _) _)

theorem uint32_t_mul_add_le (a b c : Nat) : uint32_t (uint32_t (a * b) + c) ≤ a * b + c :=
  Nat.le_trans (uint32_t_le _) (Nat.add_le_add_right (uint32_t_le _) _)

theorem size_t_mul_add_eq (a b c : Nat) (h : a * b + c < 2 ^ 64) :
    size_t (size_t (a * b) + c) = a * b + c := by
  unfold size_t
  rw [Nat.mod_eq_of_lt (a := a * b) (by omega), Nat.mod_eq_of_lt h]

theorem uint32_t_mul_add_eq (a b c : Nat) (h : a * b + c < 2 ^ 32) :
    uint32_t (uint32_t (a * b) + c) = a * b + c := by
  unfold uint32_t
  rw [Nat.mod_eq_of_lt (a := a * b) (by omega), Nat.mod_eq_of_lt h]

/-- A row-major index stays below the size of the matrix. -/
theorem rowMajor_lt (cols rows r c : Nat) (hr : r < rows) (hc : c < cols) :
    cols * r + c < rows * cols := by
  calc cols * r + c < cols * r + cols := by omega
    _ = cols * (r + 1) := by ring
    _ ≤ cols * rows := Nat.mul_le_mul_left _ hr
    _ = rows * cols := Nat.mul_comm _ _

/-- The index of `B[i][c]` stays below the size of `B`. -/
theorem rowMajor_lt' (cols rows r c : Nat) (hr : r < rows) (hc : c < cols) :
    cols * r + c < cols * rows := by
  rw [Nat.mul_comm cols rows]; exact rowMajor_lt cols rows r c hr hc

theorem rowMajor_inj (cols r c r' c' : Nat) (hc : c < cols) (hc' : c' < cols)
    (h : cols * r + c = cols * r' + c') : r = r' ∧ c = c' := by
  have hpos : 0 < cols := by omega
  have h1 : (cols * r + c) / cols = r := by
    rw [Nat.mul_add_div hpos, Nat.div_eq_of_lt hc, Nat.add_zero]
  have h2 : (cols * r' + c') / cols = r' := by
    rw [Nat.mul_add_div hpos, Nat.div_eq_of_lt hc', Nat.add_zero]
  have hr : r = r' := by rw [← h1, ← h2, h]
  subst hr
  exact ⟨rfl, by omega⟩

theorem mem_gridPositions (width height : Nat) (p : uint2) :
    p ∈ metal.gridPositions width height ↔ p.x < width ∧ p.y < height := by
  unfold metal.gridPositions
  simp only [List.mem_flatMap, List.mem_map, List.mem_range]
  constructor
  · rintro ⟨y, hy, x, hx, rfl⟩
    exact ⟨hx, hy⟩
  · rintro ⟨hx, hy⟩
    exact ⟨p.y, hy, p.x, hx, rfl⟩

/-! ## The two backends as sequences of cell writes -/

section Backends

variable {α : Type} [Zero α] [Add α] [Mul α]

/-- The accumulation loop of either backend, with its two index functions. -/
theorem body_foldlM (A B : List α) (ia ib : Nat → Nat) (k : Nat)
    (f : α → Nat → Option α)
    (hf : ∀ acc i, f acc i = (A[ia i]?).bind (fun a => (B[ib i]?).bind (fun b =>
      some (acc + a * b))))
    (hA : ∀ i < k, ia i < A.length) (hB : ∀ i < k, ib i < B.length) :
    (List.range k).foldlM f (0 : α) = some (accSum A B ia ib k) := by
  unfold accSum
  apply foldlM_eq_some_foldl
  intro i hi acc
  have hi' := List.mem_range.1 hi
  rw [hf, List.getD_eq_getElem?_getD, List.getD_eq_getElem?_getD,
    List.getElem?_eq_getElem (hA i hi'), List.getElem?_eq_getElem (hB i hi')]
  rfl

theorem accSum_congr (A B : List α) (ia ib ia' ib' : Nat → Nat) (k : Nat)
    (ha : ∀ i < k, ia i = ia' i) (hb : ∀ i < k, ib i = ib' i) :
    accSum A B ia ib k = accSum A B ia' ib' k := by
  unfold accSum
  have h : ∀ (l : List Nat) (init : α), (∀ i ∈ l, i < k) →
      l.foldl (fun acc i => acc + A.getD (ia i) 0 * B.getD (ib i) 0) init
        = l.foldl (fun acc i => acc + A.getD (ia' i) 0 * B.getD (ib' i) 0) init := by
    intro l
    induction l with
    | nil => intro _ _; rfl
    | cons i l ih =>
      intro init hl
      have hi := hl i (List.mem_cons_self _ _)
      rw [List.foldl_cons, List.foldl_cons, ha i hi, hb i hi]
      exact ih _ (fun j hj => hl j (List.mem_cons_of_mem _ hj))
  exact h _ _ (fun i hi => List.mem_range.1 hi)

theorem dotSum_eq_accSum (A B : List α) (k n r c : Nat) :
    dotSum A B k n r c = accSum A B (fun i => k * r + i) (fun i => n * i + c) k := rfl

theorem cpu_dot_eq_foldlM (A B OUT : List α) (k m n : Nat) :
    cpu_dot A B OUT k m n = (metal.gridPositions n m).foldlM
      (cellStep (cpu_dot.val A B k n) (fun p => cpu_dot.OUT_index n p.y p.x)) OUT := by
  unfold cpu_dot metal.gridPositions
  rw [foldlM_flatMap]
  simp only [List.foldlM_map]
  rfl

theorem metal_dot_eq_foldlM (order : List uint2) (A B OUT : List α) (k m n : Nat) :
    metal.dot order A B OUT k m n = order.foldlM
      (cellStep (msl.dot.val A B k n) (msl.dot.OUT_index n)) OUT := rfl

theorem cpu_dot_val_some (A B : List α) (k m n : Nat) (p : uint2)
    (hA : m * k ≤ A.length) (hB : k * n ≤ B.length) (hx : p.x < n) (hy : p.y < m) :
    cpu_dot.val A B k n p = some (cpu_dot.sum A B k n p) := by
  apply body_foldlM A B (cpu_dot.A_index k p.y) (fun i => cpu_dot.B_index n i p.x) k
  · intro acc i; rfl
  · intro i hi
    have h1 := size_t_mul_add_le k p.y i
    have h2 := rowMajor_lt k m p.y i hy hi
    unfold cpu_dot.A_index; omega
  · intro i hi
    have h1 := size_t_mul_add_le n i p.x
    have h2 := rowMajor_lt' n k i p.x hi hx
    simp only [cpu_dot.B_index]; rw [Nat.mul_comm k n] at hB; omega

theorem msl_dot_val_some (A B : List α) (k m n : Nat) (p : uint2)
    (hA : m * k ≤ A.length) (hB : k * n ≤ B.length) (hx : p.x < n) (hy : p.y < m) :
    msl.dot.val A B k n p = some (msl.dot.sum A B k n p) := by
  apply body_foldlM A B (msl.dot.A_index k p) (fun i => msl.dot.B_index n i p) k
  · intro acc i; rfl
  · intro i hi
    have h1 := uint32_t_mul_add_le k p.y i
    have h2 := rowMajor_lt k m p.y i hy hi
    unfold msl.dot.A_index; omega
  · intro i hi
    have h1 := uint32_t_mul_add_le n i p.x
    have h2 := rowMajor_lt' n k i p.x hi hx
    simp only [msl.dot.B_index]; rw [Nat.mul_comm k n] at hB; omega

theorem cpu_dot_OUT_index_lt (m n : Nat) (p : uint2) (hx : p.x < n) (hy : p.y < m) :
    cpu_dot.OUT_index n p.y p.x < m * n := by
  have h1 := size_t_mul_add_le n p.y p.x
  have h2 := rowMajor_lt n m p.y p.x hy hx
  unfold cpu_dot.OUT_index; omega

theorem msl_dot_OUT_index_lt (m n : Nat) (p : uint2) (hx : p.x < n) (hy : p.y < m) :
    msl.dot.OUT_index n p < m * n := by
  have h1 := uint32_t_mul_add_le n p.y p.x
  have h2 := rowMajor_lt n m p.y p.x hy hx
  unfold msl.dot.OUT_index; omega

/-- With buffers at least as long as the dimensions ask, `cpu_dot` performs
one write per position, in row-major order. -/
theorem cpu_dot_run (A B OUT : List α) (k m n : Nat)
    (hA : m * k ≤ A.length) (hB : k * n ≤ B.length) (hOUT : m * n ≤ OUT.length) :
    cpu_dot A B OUT k m n = some (applyWrites OUT ((metal.gridPositions n m).map
      (fun p => (cpu_dot.OUT_index n p.y p.x, cpu_dot.sum A B k n p)))) := by
  rw [cpu_dot_eq_foldlM]
  apply foldlM_cellStep
  intro p hp
  obtain ⟨hx, hy⟩ := (mem_gridPositions n m p).1 hp
  exact ⟨cpu_dot_val_some A B k m n p hA hB hx hy,
    Nat.lt_of_lt_of_le (cpu_dot_OUT_index_lt m n p hx hy) hOUT⟩

/-- With buffers at least as long as the dimensions ask, the dispatch performs
one write per invocation, in the order of the invocations. -/
theorem metal_dot_run (order : List uint2) (A B OUT : List α) (k m n : Nat)
    (horder : ∀ p ∈ order, p.x < n ∧ p.y < m)
    (hA : m * k ≤ A.length) (hB : k * n ≤ B.length) (hOUT : m * n ≤ OUT.length) :
    metal.dot order A B OUT k m n = some (applyWrites OUT (order.map
      (fun p => (msl.dot.OUT_index n p, msl.dot.sum A B k n p)))) := by
  rw [metal_dot_eq_foldlM]
  apply foldlM_cellStep
  intro p hp
  obtain ⟨hx, hy⟩ := horder p hp
  exact ⟨msl_dot_val_some A B k m n p hA hB hx hy,
    Nat.lt_of_lt_of_le (msl_dot_OUT_index_lt m n p hx hy) hOUT⟩

theorem cpu_dot_sum_eq (A B : List α) (k m n : Nat) (p : uint2)
    (hA : m * k ≤ 2 ^ 64) (hB : k * n ≤ 2 ^ 64) (hx : p.x < n) (hy : p.y < m) :
    cpu_dot.sum A B k n p = dotSum A B k n p.y p.x := by
  rw [dotSum_eq_accSum]
  apply accSum_congr
  · intro i hi
    have h2 := rowMajor_lt k m p.y i hy hi
    exact size_t_mul_add_eq _ _ _ (by omega)
  · intro i hi
    have h2 := rowMajor_lt' n k i p.x hi hx
    rw [Nat.mul_comm n k] at h2
    exact size_t_mul_add_eq _ _ _ (by omega)

theorem msl_dot_sum_eq (A B : List α) (k m n : Nat) (p : uint2)
    (hA : m * k ≤ 2 ^ 32) (hB : k * n ≤ 2 ^ 32) (hx : p.x < n) (hy : p.y < m) :
    msl.dot.sum A B k n p = dotSum A B k n p.y p.x := by
  rw [dotSum_eq_accSum]
  apply accSum_congr
  · intro i hi
    have h2 := rowMajor_lt k m p.y i hy hi
    exact uint32_t_mul_add_eq _ _ _ (by omega)
  · intro i hi
    have h2 := rowMajor_lt' n k i p.x hi hx
    rw [Nat.mul_comm n k] at h2
    exact uint32_t_mul_add_eq _ _ _ (by omega)

theorem cpu_dot_OUT_index_eq (m n : Nat) (p : uint2) (hOUT : m * n ≤ 2 ^ 64)
    (hx : p.x < n) (hy : p.y < m) : cpu_dot.OUT_index n p.y p.x = n * p.y + p.x := by
  have h2 := rowMajor_lt n m p.y p.x hy hx
  exact size_t_mul_add_eq _ _ _ (by omega)

theorem msl_dot_OUT_index_eq (m n : Nat) (p : uint2) (hOUT : m * n ≤ 2 ^ 32)
    (hx : p.x < n) (hy : p.y < m) : msl.dot.OUT_index n p = n * p.y + p.x := by
  have h2 := rowMajor_lt n m p.y p.x hy hx
  exact uint32_t_mul_add_eq _ _ _ (by omega)

omit [Zero α] [Add α] [Mul α] in
/-- What a sequence of in-grid writes with exact row-major indices and
position-determined values leaves in `OUT`, when every position of the grid
occurs in it. -/
theorem cells_of_writes (idx : uint2 → Nat) (v : uint2 → α) (ps : List uint2) (OUT : List α)
    (m n : Nat) (hOUT : m * n ≤ OUT.length)
    (hps : ∀ p, p ∈ ps ↔ p.x < n ∧ p.y < m)
    (hidx : ∀ p ∈ ps, idx p = n * p.y + p.x) :
    (applyWrites OUT (ps.map (fun p => (idx p, v p)))).length = OUT.length ∧
    (∀ r < m, ∀ c < n,
      (applyWrites OUT (ps.map (fun p => (idx p, v p))))[n * r + c]? = some (v ⟨c, r⟩)) ∧
    (∀ j, m * n ≤ j → (applyWrites OUT (ps.map (fun p => (idx p, v p))))[j]? = OUT[j]?) := by
  refine ⟨applyWrites_length _ _, ?_, ?_⟩
  · intro r hr c hc
    have hp : (⟨c, r⟩ : uint2) ∈ ps := (hps _).2 ⟨hc, hr⟩
    have hi : idx ⟨c, r⟩ = n * r + c := hidx _ hp
    have hlt := rowMajor_lt n m r c hr hc
    have := applyWrites_map_getElem?_of_mem idx v ps OUT ⟨c, r⟩ hp (by omega) (by
      intro q hq hqi
      rw [hidx q hq, hi] at hqi
      obtain ⟨hqx, -⟩ := (hps q).1 hq
      obtain ⟨h1, h2⟩ := rowMajor_inj n q.y q.x r c hqx hc hqi
      have : q = ⟨c, r⟩ := by cases q; simp_all
      rw [this])
    rwa [hi] at this
  · intro j hj
    apply applyWrites_map_getElem?_of_not_mem
    intro p hp hpj
    obtain ⟨hx, hy⟩ := (hps p).1 hp
    have hlt := rowMajor_lt n m p.y p.x hy hx
    rw [hidx p hp] at hpj
    omega

/-- The cells `cpu_dot` leaves, with the values as the code indexes them: no
cell depends on the former content of `OUT`. -/
theorem cpu_dot_cells (A B OUT : List α) (k m n : Nat)
    (hA : m * k ≤ A.length) (hB : k * n ≤ B.length) (hOUT : m * n ≤ OUT.length)
    (hOUT64 : OUT.length ≤ SIZE_MAX) :
    ∃ O, cpu_dot A B OUT k m n = some O ∧ O.length = OUT.length ∧
      (∀ r < m, ∀ c < n, O[n * r + c]? = some (cpu_dot.sum A B k n ⟨c, r⟩)) ∧
      (∀ j, m * n ≤ j → O[j]? = OUT[j]?) := by
  have h64 : SIZE_MAX ≤ 2 ^ 64 := by unfold SIZE_MAX; omega
  exact ⟨_, cpu_dot_run A B OUT k m n hA hB hOUT,
    cells_of_writes (fun p => cpu_dot.OUT_index n p.y p.x)
      (cpu_dot.sum A B k n) (metal.gridPositions n m) OUT m n hOUT (mem_gridPositions n m)
      (fun p hp => cpu_dot_OUT_index_eq m n p (by omega) ((mem_gridPositions n m p).1 hp).1
        ((mem_gridPositions n m p).1 hp).2)⟩

theorem mem_order (order : List uint2) (m n : Nat) (horder : metal.IsOrder order m n)
    (p : uint2) : p ∈ order ↔ p.x < n ∧ p.y < m :=
  (List.Perm.mem_iff horder).trans (mem_gridPositions n m p)

/-- The cells the dispatch leaves, with the values as the kernel indexes them,
when the cell indices fit 32 bits: no cell depends on the order of the
invocations or on the former content of `OUT`. -/
theorem metal_dot_cells (order : List uint2) (A B OUT : List α) (k m n : Nat)
    (horder : metal.IsOrder order m n)
    (hA : m * k ≤ A.length) (hB : k * n ≤ B.length) (hOUT : m * n ≤ OUT.length)
    (hOUT32 : m * n ≤ 2 ^ 32) :
    ∃ O, metal.dot order A B OUT k m n = some O ∧ O.length = OUT.length ∧
      (∀ r < m, ∀ c < n, O[n * r + c]? = some (msl.dot.sum A B k n ⟨c, r⟩)) ∧
      (∀ j, m * n ≤ j → O[j]? = OUT[j]?) := by
  have hmem := mem_order order m n horder
  exact ⟨_, metal_dot_run order A B OUT k m n (fun p hp => (hmem p).1 hp) hA hB hOUT,
    cells_of_writes (msl.dot.OUT_index n)
      (msl.dot.sum A B k n) order OUT m n hOUT hmem
      (fun p hp => msl_dot_OUT_index_eq m n p hOUT32 ((hmem p).1 hp).1 ((hmem p).1 hp).2)⟩

/-- The scalar reference computes the product, cell by cell, and touches
nothing beyond the `m * n` cells. -/
theorem cpu_dot_spec (A B OUT : List α) (k m n : Nat)
    (hA : m * k ≤ A.length) (hB : k * n ≤ B.length) (hOUT : m * n ≤ OUT.length)
    (hA64 : A.length ≤ SIZE_MAX) (hB64 : B.length ≤ SIZE_MAX) (hOUT64 : OUT.length ≤ SIZE_MAX) :
    ∃ O, cpu_dot A B OUT k m n = some O ∧ O.length = OUT.length ∧
      (∀ r < m, ∀ c < n, O[n * r + c]? = some (dotSum A B k n r c)) ∧
      (∀ j, m * n ≤ j → O[j]? = OUT[j]?) := by
  have h64 : SIZE_MAX ≤ 2 ^ 64 := by unfold SIZE_MAX; omega
  obtain ⟨O, h0, h1, h2, h3⟩ := cpu_dot_cells A B OUT k m n hA hB hOUT hOUT64
  refine ⟨O, h0, h1, ?_, h3⟩
  intro r hr c hc
  rw [h2 r hr c hc, cpu_dot_sum_eq A B k m n ⟨c, r⟩ (by omega) (by omega) hc hr]

/-- The dispatched kernel computes the product, cell by cell, in whatever
order the invocations run, as long as the indices fit 32 bits. -/
theorem metal_dot_spec (order : List uint2) (A B OUT : List α) (k m n : Nat)
    (horder : metal.IsOrder order m n)
    (hA : m * k ≤ A.length) (hB : k * n ≤ B.length) (hOUT : m * n ≤ OUT.length)
    (hA32 : m * k ≤ 2 ^ 32) (hB32 : k * n ≤ 2 ^ 32) (hOUT32 : m * n ≤ 2 ^ 32) :
    ∃ O, metal.dot order A B OUT k m n = some O ∧ O.length = OUT.length ∧
      (∀ r < m, ∀ c < n, O[n * r + c]? = some (dotSum A B k n r c)) ∧
      (∀ j, m * n ≤ j → O[j]? = OUT[j]?) := by
  obtain ⟨O, h0, h1, h2, h3⟩ := metal_dot_cells order A B OUT k m n horder hA hB hOUT hOUT32
  refine ⟨O, h0, h1, ?_, h3⟩
  intro r hr c hc
  rw [h2 r hr c hc, msl_dot_sum_eq A B k m n ⟨c, r⟩ hA32 hB32 hc hr]

omit [Zero α] [Add α] [Mul α] in
/-- Two buffers of the same length that agree below and from `m * n` on are equal. -/
theorem eq_of_cells (O₁ O₂ OUT : List α) (m n : Nat) (f : Nat → Nat → α)
    (h₁ : ∀ r < m, ∀ c < n, O₁[n * r + c]? = some (f r c))
    (h₂ : ∀ r < m, ∀ c < n, O₂[n * r + c]? = some (f r c))
    (h₁' : ∀ j, m * n ≤ j → O₁[j]? = OUT[j]?)
    (h₂' : ∀ j, m * n ≤ j → O₂[j]? = OUT[j]?) : O₁ = O₂ := by
  apply List.ext_getElem?
  intro j
  by_cases hj : j < m * n
  · have hn : 0 < n := by
      rcases Nat.eq_zero_or_pos n with h | h
      · subst h; simp at hj
      · exact h
    have hr : j / n < m := by
      rw [Nat.div_lt_iff_lt_mul hn]; exact hj
    have hc : j % n < n := Nat.mod_lt _ hn
    have hjeq : n * (j / n) + j % n = j := Nat.div_add_mod j n
    have e₁ := h₁ _ hr _ hc
    have e₂ := h₂ _ hr _ hc
    rw [hjeq] at e₁ e₂
    rw [e₁, e₂]
  · rw [h₁' j (by omega), h₂' j (by omega)]

end Backends

/-- In a semiring the left-to-right sum `dotSum` is the sum `Σ_{i<k}` of the
products. -/
theorem dotSum_eq_sum {α : Type} [Semiring α] (A B : List α) (k n r c : Nat) :
    dotSum A B k n r c
      = ∑ i in Finset.range k, A.getD (k * r + i) 0 * B.getD (n * i + c) 0 := by
  unfold dotSum
  generalize hf : (fun i => A.getD (k * r + i) 0 * B.getD (n * i + c) 0) = f
  have h : ∀ k', (List.range k').foldl (fun acc i => acc + f i) 0
      = ∑ i in Finset.range k', f i := by
    intro k'
    induction k' with
    | zero => rfl
    | succ k' ih =>
      rw [List.range_succ, List.foldl_append, ih, List.foldl_cons, List.foldl_nil,
        Finset.sum_range_succ]
  have e : (fun (acc : α) (i : Nat) => acc + A.getD (k * r + i) 0 * B.getD (n * i + c) 0)
      = fun acc i => acc + f i := by
    subst hf; rfl
  rw [e, h k]

/-- In a semiring, a sum of `k` products `1 * 1` is `k`. -/
theorem dotSum_ones {α : Type} [Semiring α] (A B : List α) (k n r c : Nat)
    (hA : ∀ i < k, A.getD (k * r + i) 0 = 1) (hB : ∀ i < k, B.getD (n * i + c) 0 = 1) :
    dotSum A B k n r c = (k : α) := by
  unfold dotSum
  have h : ∀ k', k' ≤ k →
      (List.range k').foldl (fun acc i => acc + A.getD (k * r + i) 0 * B.getD (n * i + c) 0) 0
        = (k' : α) := by
    intro k'
    induction k' with
    | zero => intro _; simp
    | succ k' ih =>
      intro hk'
      rw [List.range_succ, List.foldl_append, ih (by omega), List.foldl_cons, List.foldl_nil,
        hA k' (by omega), hB k' (by omega), mul_one, Nat.cast_succ]
  exact h k (Nat.le_refl k)

theorem getD_replicate_of_lt {α : Type} (N j : Nat) (a d : α) (h : j < N) :
    (List.replicate N a).getD j d = a := by
  rw [List.getD_eq_getElem?_getD, List.getElem?_replicate, if_pos h]
  rfl

theorem gridPositions_nodup (width height : Nat) :
    (metal.gridPositions width height).Nodup := by
  unfold metal.gridPositions
  rw [List.nodup_flatMap]
  constructor
  · intro y _
    exact List.Nodup.map (fun a b h => by injection h) (List.nodup_range width)
  · refine List.Pairwise.imp ?_ (List.nodup_range height)
    intro y y' hne
    rw [Function.onFun, List.disjoint_left]
    intro p hp hp'
    obtain ⟨x, -, rfl⟩ := List.mem_map.1 hp
    obtain ⟨x', -, h⟩ := List.mem_map.1 hp'
    injection h with _ hy
    exact hne hy.symm

/-- A property that every step of a loop preserves holds after the loop. -/
theorem foldl_invariant {β γ : Type} (P : γ → Prop) (f : γ → β → γ) (l : List β) (init : γ)
    (h0 : P init) (hstep : ∀ s, ∀ b ∈ l, P s → P (f s b)) : P (l.foldl f init) := by
  induction l generalizing init with
  | nil => exact h0
  | cons b l ih =>
    exact ih _ (hstep init b (List.mem_cons_self _ _) h0)
      (fun s b' hb' => hstep s b' (List.mem_cons_of_mem _ hb'))

/-- The only cells of the memory that `cpu_dot` changes are `OUT[0 .. m*n)`. -/
theorem cpu_dot_mem_outside {α : Type} [Zero α] [Add α] [Mul α] (mem : Nat → α)
    (A B OUT k m n a : Nat) (ha : a < OUT ∨ OUT + m * n ≤ a) :
    cpu_dot_mem mem A B OUT k m n a = mem a := by
  unfold cpu_dot_mem
  apply foldl_invariant (fun mem' : Nat → α => mem' a = mem a)
  · rfl
  · intro s row hrow hs
    apply foldl_invariant (fun mem' : Nat → α => mem' a = mem a)
    · exact hs
    · intro s' col hcol hs'
      have hlt := cpu_dot_OUT_index_lt m n ⟨col, row⟩ (List.mem_range.1 hcol)
        (List.mem_range.1 hrow)
      have hne : a ≠ OUT + cpu_dot.OUT_index n row col := by
        simp only at hlt; omega
      simp only [Function.update_noteq hne, hs']

/-! ## The flat memory and the three buffers -/

theorem foldl_flatMap_eq {β γ P : Type} (f : γ → β → γ) (g : P → List β) (l : List P)
    (init : γ) :
    (l.flatMap g).foldl f init = l.foldl (fun acc a => (g a).foldl f acc) init := by
  induction l generalizing init with
  | nil => rfl
  | cons a l ih => rw [List.flatMap_cons, List.foldl_append, List.foldl_cons, ih]

/-- Two loops over the same list whose steps preserve a relation between
their states end in related states. -/
theorem foldl_simulation {β γ δ : Type} (R : γ → δ → Prop) (f : γ → β → γ) (g : δ → β → δ)
    (l : List β) (s : γ) (t : δ) (h0 : R s t)
    (hstep : ∀ s t, ∀ b ∈ l, R s t → R (f s b) (g t b)) :
    R (l.foldl f s) (l.foldl g t) := by
  induction l generalizing s t with
  | nil => exact h0
  | cons b l ih =>
    exact ih _ _ (hstep s t b (List.mem_cons_self _ _) h0)
      (fun s t b' hb' => hstep s t b' (List.mem_cons_of_mem _ hb'))

theorem cpu_dot_mem_eq_foldl {α : Type} [Zero α] [Add α] [Mul α] (mem : Nat → α)
    (pA pB pOUT k m n : Nat) :
    cpu_dot_mem mem pA pB pOUT k m n
      = (metal.gridPositions n m).foldl (cpu_dot_mem.step pA pB pOUT k n) mem := by
  unfold cpu_dot_mem metal.gridPositions
  rw [foldl_flatMap_eq]
  simp only [List.foldl_map]
  rfl

/-- The flat-memory embedding and the list embedding of `cpu_dot` agree: on a
memory that holds the lists `A`, `B` and `OUT` at the addresses `pA`, `pB` and
`pOUT`, with `OUT` apart from `A` and from `B`, the memory after the call holds
`A`, `B` and the list that `cpu_dot` returns. -/
theorem cpu_dot_mem_refines {α : Type} [Zero α] [Add α] [Mul α] (mem : Nat → α)
    (pA pB pOUT : Nat) (A B OUT : List α) (k m n : Nat)
    (hmA : ∀ i < A.length, mem (pA + i) = A.getD i 0)
    (hmB : ∀ i < B.length, mem (pB + i) = B.getD i 0)
    (hmO : ∀ j < OUT.length, mem (pOUT + j) = OUT.getD j 0)
    (hsA : pA + A.length ≤ pOUT ∨ pOUT + OUT.length ≤ pA)
    (hsB : pB + B.length ≤ pOUT ∨ pOUT + OUT.length ≤ pB)
    (hA : m * k ≤ A.length) (hB : k * n ≤ B.length) (hOUT : m * n ≤ OUT.length) :
    ∃ O, cpu_dot A B OUT k m n = some O ∧ O.length = OUT.length ∧
      (∀ i < A.length, cpu_dot_mem mem pA pB pOUT k m n (pA + i) = A.getD i 0) ∧
      (∀ i < B.length, cpu_dot_mem mem pA pB pOUT k m n (pB + i) = B.getD i 0) ∧
      (∀ j < OUT.length, cpu_dot_mem mem pA pB pOUT k m n (pOUT + j) = O.getD j 0) := by
  refine ⟨_, cpu_dot_run A B OUT k m n hA hB hOUT, ?_⟩
  rw [cpu_dot_mem_eq_foldl]
  unfold applyWrites
  rw [List.foldl_map]
  apply foldl_simulation (fun (mem' : Nat → α) (O' : List α) =>
    O'.length = OUT.length ∧
    (∀ i < A.length, mem' (pA + i) = A.getD i 0) ∧
    (∀ i < B.length, mem' (pB + i) = B.getD i 0) ∧
    (∀ j < OUT.length, mem' (pOUT + j) = O'.getD j 0))
  · exact ⟨rfl, hmA, hmB, hmO⟩
  · rintro mem' O' p hp ⟨hl, hA', hB', hO'⟩
    obtain ⟨hx, hy⟩ := (mem_gridPositions n m p).1 hp
    have hio := cpu_dot_OUT_index_lt m n p hx hy
    have hval : (List.range k).foldl
        (fun val i => val + mem' (pA + cpu_dot.A_index k p.y i)
          * mem' (pB + cpu_dot.B_index n i p.x)) (0 : α) = cpu_dot.sum A B k n p := by
      unfold cpu_dot.sum accSum
      apply List.foldl_ext
      intro acc i hi
      have hi' := List.mem_range.1 hi
      have h1 := size_t_mul_add_le k p.y i
      have h2 := rowMajor_lt k m p.y i hy hi'
      have h3 := size_t_mul_add_le n i p.x
      have h4 := rowMajor_lt' n k i p.x hi' hx
      rw [Nat.mul_comm n k] at h4
      rw [hA' _ (by unfold cpu_dot.A_index; omega), hB' _ (by unfold cpu_dot.B_index; omega)]
    unfold cpu_dot_mem.step
    rw [hval]
    refine ⟨by rw [List.length_set, hl], ?_, ?_, ?_⟩
    · intro i hi
      rw [Function.update_noteq (by omega), hA' i hi]
    · intro i hi
      rw [Function.update_noteq (by omega), hB' i hi]
    · intro j hj
      rw [List.getD_eq_getElem?_getD, List.getElem?_set]
      by_cases e : cpu_dot.OUT_index n p.y p.x = j
      · rw [if_pos e, if_pos (by omega), e, Function.update_same]
        rfl
      · rw [if_neg e, Function.update_noteq (by omega), hO' j hj, List.getD_eq_getElem?_getD]

theorem getD_map_range {α : Type} (f : Nat → α) (N j : Nat) (d : α) (h : j < N) :
    ((List.range N).map f).getD j d = f j := by
  rw [List.getD_eq_getElem?_getD, List.getElem?_map, List.getElem?_range h]
  rfl

/-- Cells that hold the same position-determined values agree. -/
theorem cells_agree {α : Type} (O₁ O₂ : List α) (m n : Nat) (f : Nat → Nat → α)
    (h₁ : ∀ r < m, ∀ c < n, O₁[n * r + c]? = some (f r c))
    (h₂ : ∀ r < m, ∀ c < n, O₂[n * r + c]? = some (f r c)) :
    ∀ j < m * n, O₁[j]? = O₂[j]? := by
  intro j hj
  have hn : 0 < n := by
    rcases Nat.eq_zero_or_pos n with h | h
    · subst h; simp at hj
    · exact h
  have hr : j / n < m := by rw [Nat.div_lt_iff_lt_mul hn]; exact hj
  have hc : j % n < n := Nat.mod_lt _ hn
  have e₁ := h₁ _ hr _ hc
  have e₂ := h₂ _ hr _ hc
  rw [Nat.div_add_mod j n] at e₁ e₂
  rw [e₁, e₂]

theorem orderEndingWith_isOrder (m n : Nat) (p : uint2) (hx : p.x < n) (hy : p.y < m) :
    metal.IsOrder (orderEndingWith n m p) m n :=
  (List.perm_append_singleton p _).trans
    (List.perm_cons_erase ((mem_gridPositions n m p).2 ⟨hx, hy⟩)).symm

/-- After a dispatch in an order that performs `p` last, the cell `p` writes
holds the value of `p`. -/
theorem metal_dot_last {α : Type} [Zero α] [Add α] [Mul α] (A B OUT : List α) (k m n : Nat)
    (p : uint2) (hx : p.x < n) (hy : p.y < m)
    (hA : m * k ≤ A.length) (hB : k * n ≤ B.length) (hOUT : m * n ≤ OUT.length) :
    ∃ G, metal.dot (orderEndingWith n m p) A B OUT k m n = some G ∧
      G[msl.dot.OUT_index n p]? = some (msl.dot.sum A B k n p) := by
  have ho := orderEndingWith_isOrder m n p hx hy
  refine ⟨_, metal_dot_run _ A B OUT k m n (fun q hq => (mem_order _ m n ho q).1 hq)
    hA hB hOUT, ?_⟩
  unfold orderEndingWith
  rw [List.map_append, List.map_cons, List.map_nil]
  exact applyWrites_getElem?_last OUT _ [] _ _
    (Nat.lt_of_lt_of_le (msl_dot_OUT_index_lt m n p hx hy) hOUT) (fun w hw => by simp at hw)

/-! ## The claims -/

/-- C1: `cpu_dot` is the matrix product.  For buffers `A` of length `m * k`,
`B` of length `k * n` and `OUT` of length `m * n` (objects of the address
space, hence of at most `SIZE_MAX` elements), `cpu_dot(A, B, OUT, k, m, n)`
returns, and afterwards every cell `OUT[n*r + c]` with `r < m`, `c < n` holds
the sum over `i < k` of `A[k*r + i] * B[n*i + c]`, taken left to right from
`0`. -/
theorem cpu_dot_matrix_product {α : Type} [Zero α] [Add α] [Mul α] (A B OUT : List α)
    (k m n : Nat)
    (hA : A.length = m * k) (hB : B.length = k * n) (hOUT : OUT.length = m * n)
    (hA64 : A.length ≤ SIZE_MAX) (hB64 : B.length ≤ SIZE_MAX) (hOUT64 : OUT.length ≤ SIZE_MAX) :
    ∃ OUT', cpu_dot A B OUT k m n = some OUT' ∧ OUT'.length = m * n ∧
      ∀ r < m, ∀ c < n, OUT'[n * r + c]? = some (dotSum A B k n r c) := by
  obtain ⟨O, h1, h2, h3, -⟩ := cpu_dot_spec A B OUT k m n (by omega) (by omega) (by omega)
    hA64 hB64 hOUT64
  exact ⟨O, h1, by omega, h3⟩

/-- The two examples of C1: `[2,0,0]` (1×3) times `[4,5,6]` (3×1) is `[8]`, and
the all-ones 1000×1000 matrix times the all-ones 1000×100 matrix has every
cell equal to `1000`. -/
theorem cpu_dot_matrix_product_witness :
    cpu_dot ([2, 0, 0] : List ℚ) [4, 5, 6] [0] 3 1 1 = some [8] ∧
    cpu_dot (List.replicate 1000000 (1 : ℚ)) (List.replicate 100000 1)
      (List.replicate 100000 0) 1000 1000 100 = some (List.replicate 100000 1000) := by
  constructor
  · obtain ⟨O, h1, h2, h3⟩ := cpu_dot_matrix_product ([2, 0, 0] : List ℚ) [4, 5, 6] [0] 3 1 1
      rfl rfl rfl (by decide) (by decide) (by decide)
    rw [h1]
    have h := h3 0 (by decide) 0 (by decide)
    match O, h2, h with
    | [x], _, h =>
      have hx : x = dotSum ([2, 0, 0] : List ℚ) [4, 5, 6] 3 1 0 0 := by simpa using h
      rw [hx]
      norm_num [dotSum, List.range_succ]
  · obtain ⟨O, h1, h2, h3⟩ := cpu_dot_matrix_product (List.replicate 1000000 (1 : ℚ))
      (List.replicate 100000 1) (List.replicate 100000 0) 1000 1000 100
      (by rw [List.length_replicate]) (by rw [List.length_replicate])
      (by rw [List.length_replicate])
      (by rw [List.length_replicate]; decide) (by rw [List.length_replicate]; decide)
      (by rw [List.length_replicate]; decide)
    rw [h1]
    refine congrArg some ?_
    apply List.ext_getElem?
    intro j
    rw [List.getElem?_replicate]
    by_cases hj : j < 100000
    · rw [if_pos hj]
      have hjeq : 100 * (j / 100) + j % 100 = j := Nat.div_add_mod j 100
      have e := h3 (j / 100) (by omega) (j % 100) (by omega)
      rw [hjeq] at e
      rw [e, dotSum_ones]
      · norm_num
      · intro i hi
        exact getD_replicate_of_lt _ _ _ _ (by omega)
      · intro i hi
        exact getD_replicate_of_lt _ _ _ _ (by omega)
    · rw [if_neg hj]
      exact List.getElem?_eq_none (by omega)

/-- C2: the GPU path refines the scalar reference.  When every index is below
`2 ^ 32`, running the kernel `dot` once for every position of the grid
`(OUT_cols, OUT_rows)`, in any order, returns and leaves `OUT` identical to
the `OUT` that `cpu_dot` produces from the same buffers. -/
theorem metal_dot_refines_cpu_dot {α : Type} [Zero α] [Add α] [Mul α] (order : List uint2)
    (A B OUT : List α) (k m n : Nat) (horder : metal.IsOrder order m n)
    (hA : A.length = m * k) (hB : B.length = k * n) (hOUT : OUT.length = m * n)
    (hA32 : m * k ≤ 2 ^ 32) (hB32 : k * n ≤ 2 ^ 32) (hOUT32 : m * n ≤ 2 ^ 32) :
    ∃ OUT', cpu_dot A B OUT k m n = some OUT' ∧ metal.dot order A B OUT k m n = some OUT' := by
  have h64 : (2 : Nat) ^ 32 ≤ SIZE_MAX := by decide
  obtain ⟨O₁, c1, -, c3, c4⟩ := cpu_dot_spec A B OUT k m n (by omega) (by omega) (by omega)
    (by omega) (by omega) (by omega)
  obtain ⟨O₂, g1, -, g3, g4⟩ := metal_dot_spec order A B OUT k m n horder (by omega) (by omega)
    (by omega) hA32 hB32 hOUT32
  refine ⟨O₁, c1, ?_⟩
  rw [g1, eq_of_cells O₂ O₁ OUT m n (dotSum A B k n) g3 c3 g4 c4]

/-- A run of C2 on the 2×3 by 3×2 product, with the invocations in reverse
grid order. -/
theorem metal_dot_refines_cpu_dot_witness :
    ∃ OUT', cpu_dot ([1, 2, 3, 4, 5, 6] : List Int) [1, 0, 0, 1, 1, 1] [0, 0, 0, 0] 3 2 2
        = some OUT' ∧
      metal.dot (metal.gridPositions 2 2).reverse ([1, 2, 3, 4, 5, 6] : List Int)
        [1, 0, 0, 1, 1, 1] [0, 0, 0, 0] 3 2 2 = some OUT' :=
  metal_dot_refines_cpu_dot (metal.gridPositions 2 2).reverse [1, 2, 3, 4, 5, 6]
    [1, 0, 0, 1, 1, 1] [0, 0, 0, 0] 3 2 2 (List.reverse_perm _) rfl rfl rfl
    (by decide) (by decide) (by decide)

/-- C3, as stated, fails: a width above the maximum gives a thread group of
height zero, and a width of zero has no quotient at all. -/
theorem threadsSize_zero_dimension :
    metal.threadsSize 64 32 = some (64, 0, 1) ∧ metal.threadsSize 0 32 = none := by
  decide

/-- C3, amended: for an execution width `w ≥ 1` and any maximum `T`, the
thread-group size is `(w, T / w, 1)`; it has at most `T` threads and a non-zero
width, and its height is non-zero exactly when `w ≤ T`. -/
theorem threadsSize_bounds (w T : Nat) (hw : 0 < w) :
    metal.threadsSize w T = some (w, T / w, 1) ∧ w * (T / w) ≤ T ∧ w ≠ 0 ∧
      (T / w ≠ 0 ↔ w ≤ T) := by
  refine ⟨?_, Nat.mul_div_le T w, by omega, ?_⟩
  · unfold metal.threadsSize
    rw [if_neg (by omega)]
  · have h : T / w = 0 ↔ T < w := Nat.div_eq_zero_iff hw
    omega

/-- An instance of the amended C3: width 32, maximum 1024. -/
theorem threadsSize_bounds_witness :
    metal.threadsSize 32 1024 = some (32, 32, 1) ∧ 32 * (1024 / 32) ≤ 1024 ∧ 32 ≠ 0 ∧
      (1024 / 32 ≠ 0 ↔ 32 ≤ 1024) :=
  threadsSize_bounds 32 1024 (by decide)

/-- C4, as stated, fails: `metal::dot` checks no length.  Called with `A` of
two floats, `B` of two and `OUT` of two for the dimensions `1, 1, 1`, it
dispatches the kernel, which overwrites `OUT[0]`. -/
theorem metal_dot_accepts_mismatch :
    ([1, 2] : List Int).length ≠ 1 * 1 ∧ ([3, 4] : List Int).length ≠ 1 * 1 ∧
    ([0, 0] : List Int).length ≠ 1 * 1 ∧
    metal.dot (metal.gridPositions 1 1) ([1, 2] : List Int) [3, 4] [0, 0] 1 1 1 = some [3, 0] ∧
    ([3, 0] : List Int) ≠ [0, 0] := by
  decide

/-- C4, amended: `metal::dot` checks no buffer length.  Whenever `A` has at least
`m * k`, `B` at least `k * n` and `OUT` at least `m * n` elements, equal to
these products or not, and the indices fit 32 bits, the dispatch runs every
invocation: it returns, the first `m * n` cells of `OUT` hold the product and
the cells from `m * n` on are unchanged. -/
theorem metal_dot_no_shape_check {α : Type} [Zero α] [Add α] [Mul α] (order : List uint2)
    (A B OUT : List α) (k m n : Nat) (horder : metal.IsOrder order m n)
    (hA : m * k ≤ A.length) (hB : k * n ≤ B.length) (hOUT : m * n ≤ OUT.length)
    (hA32 : m * k ≤ 2 ^ 32) (hB32 : k * n ≤ 2 ^ 32) (hOUT32 : m * n ≤ 2 ^ 32) :
    ∃ OUT', metal.dot order A B OUT k m n = some OUT' ∧ OUT'.length = OUT.length ∧
      (∀ r < m, ∀ c < n, OUT'[n * r + c]? = some (dotSum A B k n r c)) ∧
      (∀ j, m * n ≤ j → OUT'[j]? = OUT[j]?) :=
  metal_dot_spec order A B OUT k m n horder hA hB hOUT hA32 hB32 hOUT32

/-- The amended C4 on buffers longer than the dimensions `1, 2, 1` ask for. -/
theorem metal_dot_no_shape_check_witness :
    ∃ OUT', metal.dot (metal.gridPositions 1 2) ([1, 2, 9] : List Int) [3, 4] [0, 0, 7] 1 2 1
        = some OUT' ∧ OUT'.length = ([0, 0, 7] : List Int).length ∧
      (∀ r < 2, ∀ c < 1, OUT'[1 * r + c]? = some (dotSum ([1, 2, 9] : List Int) [3, 4] 1 1 r c)) ∧
      (∀ j, 2 * 1 ≤ j → OUT'[j]? = ([0, 0, 7] : List Int)[j]?) :=
  metal_dot_no_shape_check (metal.gridPositions 1 2) [1, 2, 9] [3, 4] [0, 0, 7] 1 2 1
    (List.Perm.refl _) (by decide) (by decide) (by decide) (by decide) (by decide) (by decide)

/-- C5, as stated, fails for the kernel: on the grid of 65536 columns and
65537 rows the invocations at `(0, 0)` and `(0, 65536)` both write cell `0`
(`65536 * 65536` is `0` in `uint32_t`), with the values `1` and `65537` for `A`
the column `1, …, 65537` and `B` the row of ones; the content of the cell after
the dispatch is that of whichever invocation the device performs last. -/
theorem kernel_order_dependent :
    metal.IsOrder (orderEndingWith 65536 65537 ⟨0, 0⟩) 65537 65536 ∧
    metal.IsOrder (orderEndingWith 65536 65537 ⟨0, 65536⟩) 65537 65536 ∧
    ∃ G₁ G₂,
      metal.dot (orderEndingWith 65536 65537 ⟨0, 0⟩) rowWeights (List.replicate 65536 1)
        (List.replicate (65537 * 65536) 0) 1 65537 65536 = some G₁ ∧
      metal.dot (orderEndingWith 65536 65537 ⟨0, 65536⟩) rowWeights (List.replicate 65536 1)
        (List.replicate (65537 * 65536) 0) 1 65537 65536 = some G₂ ∧
      G₁[0]? = some 1 ∧ G₂[0]? = some 65537 := by
  have hA : 65537 * 1 ≤ rowWeights.length := by
    unfold rowWeights; rw [List.length_map, List.length_range]
  have hB : 1 * 65536 ≤ (List.replicate 65536 (1 : Int)).length := by
    rw [List.length_replicate]
  have hOUT : 65537 * 65536 ≤ (List.replicate (65537 * 65536) (0 : Int)).length := by
    rw [List.length_replicate]
  have hval : ∀ y < 65537, msl.dot.sum rowWeights (List.replicate 65536 (1 : Int)) 1 65536
      ⟨0, y⟩ = Int.ofNat (y + 1) := by
    intro y hy
    have ia : msl.dot.A_index 1 ⟨0, y⟩ 0 = y := by
      simp only [msl.dot.A_index, uint32_t]; omega
    have ib : msl.dot.B_index 65536 0 ⟨0, y⟩ = 0 := rfl
    unfold msl.dot.sum accSum
    rw [show List.range 1 = [0] from rfl, List.foldl_cons, List.foldl_nil, ia]
    simp only [ib]
    unfold rowWeights
    rw [getD_map_range _ _ _ _ hy, getD_replicate_of_lt _ _ _ _ (by decide)]
    simp
  obtain ⟨G₁, r₁, c₁⟩ := metal_dot_last rowWeights (List.replicate 65536 (1 : Int))
    (List.replicate (65537 * 65536) 0) 1 65537 65536 ⟨0, 0⟩ (by decide) (by decide) hA hB hOUT
  obtain ⟨G₂, r₂, c₂⟩ := metal_dot_last rowWeights (List.replicate 65536 (1 : Int))
    (List.replicate (65537 * 65536) 0) 1 65537 65536 ⟨0, 65536⟩ (by decide) (by decide)
    hA hB hOUT
  refine ⟨orderEndingWith_isOrder _ _ _ (by decide) (by decide),
    orderEndingWith_isOrder _ _ _ (by decide) (by decide), G₁, G₂, r₁, r₂, ?_, ?_⟩
  · rw [hval 0 (by decide), show msl.dot.OUT_index 65536 ⟨0, 0⟩ = 0 by decide] at c₁
    exact c₁
  · rw [hval 65536 (by decide), show msl.dot.OUT_index 65536 ⟨0, 65536⟩ = 0 by decide] at c₂
    exact c₂

/-- C5, amended: determinism and idempotence under fixed inputs.  With buffers
of at least the sizes the dimensions ask, the `m * n` cells `cpu_dot` writes
do not depend on the former content of `OUT`, and `cpu_dot` run again on its
own result returns that result; when `m * n ≤ 2 ^ 32` the same holds for the
kernel run over the whole grid, whatever the order of the invocations in
either run. -/
theorem multiply_deterministic {α : Type} [Zero α] [Add α] [Mul α] (order₁ order₂ : List uint2)
    (A B OUT₁ OUT₂ : List α) (k m n : Nat)
    (h₁ : metal.IsOrder order₁ m n) (h₂ : metal.IsOrder order₂ m n)
    (hA : m * k ≤ A.length) (hB : k * n ≤ B.length)
    (hOUT₁ : m * n ≤ OUT₁.length) (hOUT₂ : m * n ≤ OUT₂.length)
    (h64₁ : OUT₁.length ≤ SIZE_MAX) (h64₂ : OUT₂.length ≤ SIZE_MAX) :
    (∃ O₁ O₂, cpu_dot A B OUT₁ k m n = some O₁ ∧ cpu_dot A B OUT₂ k m n = some O₂ ∧
      (∀ j < m * n, O₁[j]? = O₂[j]?) ∧ cpu_dot A B O₁ k m n = some O₁) ∧
    (m * n ≤ 2 ^ 32 →
      ∃ G₁ G₂, metal.dot order₁ A B OUT₁ k m n = some G₁ ∧
        metal.dot order₂ A B OUT₂ k m n = some G₂ ∧
        (∀ j < m * n, G₁[j]? = G₂[j]?) ∧ metal.dot order₂ A B G₁ k m n = some G₁) := by
  constructor
  · obtain ⟨O₁, a0, a1, a2, a3⟩ := cpu_dot_cells A B OUT₁ k m n hA hB hOUT₁ h64₁
    obtain ⟨O₂, b0, -, b2, -⟩ := cpu_dot_cells A B OUT₂ k m n hA hB hOUT₂ h64₂
    obtain ⟨O', c0, -, c2, c3⟩ := cpu_dot_cells A B O₁ k m n hA hB (by omega) (by omega)
    refine ⟨O₁, O₂, a0, b0, cells_agree O₁ O₂ m n _ a2 b2, ?_⟩
    rw [c0, eq_of_cells O' O₁ O₁ m n _ c2 a2 c3 (fun _ _ => rfl)]
  · intro h32
    obtain ⟨G₁, a0, a1, a2, a3⟩ := metal_dot_cells order₁ A B OUT₁ k m n h₁ hA hB hOUT₁ h32
    obtain ⟨G₂, b0, -, b2, -⟩ := metal_dot_cells order₂ A B OUT₂ k m n h₂ hA hB hOUT₂ h32
    obtain ⟨G', c0, -, c2, c3⟩ := metal_dot_cells order₂ A B G₁ k m n h₂ hA hB (by omega) h32
    refine ⟨G₁, G₂, a0, b0, cells_agree G₁ G₂ m n _ a2 b2, ?_⟩
    rw [c0, eq_of_cells G' G₁ G₁ m n _ c2 a2 c3 (fun _ _ => rfl)]

/-- The amended C5 on a 2×3 by 3×2 product, from two different contents of
`OUT` and with two different orders of the invocations. -/
theorem multiply_deterministic_witness :
    (∃ O₁ O₂, cpu_dot ([1, 2, 3, 4, 5, 6] : List Int) [1, 0, 0, 1, 1, 1] [0, 0, 0, 0] 3 2 2
        = some O₁ ∧
      cpu_dot ([1, 2, 3, 4, 5, 6] : List Int) [1, 0, 0, 1, 1, 1] [9, 8, 7, 6] 3 2 2 = some O₂ ∧
      (∀ j < 2 * 2, O₁[j]? = O₂[j]?) ∧
      cpu_dot ([1, 2, 3, 4, 5, 6] : List Int) [1, 0, 0, 1, 1, 1] O₁ 3 2 2 = some O₁) ∧
    (∃ G₁ G₂, metal.dot (metal.gridPositions 2 2) ([1, 2, 3, 4, 5, 6] : List Int)
        [1, 0, 0, 1, 1, 1] [0, 0, 0, 0] 3 2 2 = some G₁ ∧
      metal.dot (metal.gridPositions 2 2).reverse ([1, 2, 3, 4, 5, 6] : List Int)
        [1, 0, 0, 1, 1, 1] [9, 8, 7, 6] 3 2 2 = some G₂ ∧
      (∀ j < 2 * 2, G₁[j]? = G₂[j]?) ∧
      metal.dot (metal.gridPositions 2 2).reverse ([1, 2, 3, 4, 5, 6] : List Int)
        [1, 0, 0, 1, 1, 1] G₁ 3 2 2 = some G₁) :=
  have h := multiply_deterministic (metal.gridPositions 2 2) (metal.gridPositions 2 2).reverse
    ([1, 2, 3, 4, 5, 6] : List Int) [1, 0, 0, 1, 1, 1] [0, 0, 0, 0] [9, 8, 7, 6] 3 2 2
    (List.Perm.refl _) (List.reverse_perm _) (by decide) (by decide) (by decide) (by decide)
    (by decide) (by decide)
  ⟨h.1, h.2 (by decide)⟩

/-- C7: `cpu_dot` has no effect beyond writing `OUT`.  On one flat memory, for
all pointers and dimensions, every cell outside `OUT[0 .. m*n)` holds after the
call what it held before, and when `m = 0` or `n = 0` the whole memory is
unchanged.  On buffers of at least the sizes the dimensions ask, `cpu_dot`
returns an `OUT` of the same length whose elements from index `m * n` on are
unchanged, and which is `OUT` itself when `m = 0` or `n = 0`.  And when the
memory holds the buffers `A`, `B` and `OUT`, with `OUT` apart from `A` and
`B`, it holds after the call the same `A` and `B` and the `OUT` returned. -/
theorem cpu_dot_frame {α : Type} [Zero α] [Add α] [Mul α] (mem : Nat → α)
    (pA pB pOUT : Nat) (A B OUT : List α) (k m n : Nat) :
    (∀ a, (a < pOUT ∨ pOUT + m * n ≤ a) → cpu_dot_mem mem pA pB pOUT k m n a = mem a) ∧
    ((m = 0 ∨ n = 0) → cpu_dot_mem mem pA pB pOUT k m n = mem) ∧
    (m * k ≤ A.length → k * n ≤ B.length → m * n ≤ OUT.length →
      ∃ OUT', cpu_dot A B OUT k m n = some OUT' ∧ OUT'.length = OUT.length ∧
        (∀ j, m * n ≤ j → OUT'[j]? = OUT[j]?) ∧ ((m = 0 ∨ n = 0) → OUT' = OUT)) ∧
    (m * k ≤ A.length → k * n ≤ B.length → m * n ≤ OUT.length →
      (∀ i < A.length, mem (pA + i) = A.getD i 0) →
      (∀ i < B.length, mem (pB + i) = B.getD i 0) →
      (∀ j < OUT.length, mem (pOUT + j) = OUT.getD j 0) →
      (pA + A.length ≤ pOUT ∨ pOUT + OUT.length ≤ pA) →
      (pB + B.length ≤ pOUT ∨ pOUT + OUT.length ≤ pB) →
      ∃ OUT', cpu_dot A B OUT k m n = some OUT' ∧
        (∀ i < A.length, cpu_dot_mem mem pA pB pOUT k m n (pA + i) = A.getD i 0) ∧
        (∀ i < B.length, cpu_dot_mem mem pA pB pOUT k m n (pB + i) = B.getD i 0) ∧
        (∀ j < OUT.length, cpu_dot_mem mem pA pB pOUT k m n (pOUT + j) = OUT'.getD j 0)) := by
  have hzero : (m = 0 ∨ n = 0) → m * n = 0 := by
    intro h; rcases h with h | h <;> simp [h]
  refine ⟨fun a ha => cpu_dot_mem_outside mem pA pB pOUT k m n a ha, ?_, ?_, ?_⟩
  · intro h
    funext a
    apply cpu_dot_mem_outside
    have := hzero h
    omega
  · intro hA hB hOUT
    refine ⟨_, cpu_dot_run A B OUT k m n hA hB hOUT, applyWrites_length _ _, ?_, ?_⟩
    · intro j hj
      apply applyWrites_map_getElem?_of_not_mem
      intro p hp hpj
      obtain ⟨hx, hy⟩ := (mem_gridPositions n m p).1 hp
      have := cpu_dot_OUT_index_lt m n p hx hy
      omega
    · intro h
      apply List.ext_getElem?
      intro j
      apply applyWrites_map_getElem?_of_not_mem
      intro p hp
      obtain ⟨hx, hy⟩ := (mem_gridPositions n m p).1 hp
      have := cpu_dot_OUT_index_lt m n p hx hy
      have := hzero h
      omega
  · intro hA hB hOUT hmA hmB hmO hsA hsB
    obtain ⟨O, h0, -, h1, h2, h3⟩ := cpu_dot_mem_refines mem pA pB pOUT A B OUT k m n
      hmA hmB hmO hsA hsB hA hB hOUT
    exact ⟨O, h0, h1, h2, h3⟩

/-- C7 on a memory of eight cells holding `A = [2,0,0]` at address 0,
`B = [4,5,6]` at address 3 and `OUT = [1,9]` at address 6, for the dimensions
`k = 3`, `m = n = 1`: the call writes `8` to `OUT[0]` and nothing else. -/
theorem cpu_dot_frame_witness :
    (List.range 8).map (cpu_dot_mem (fun a => ([2, 0, 0, 4, 5, 6, 1, 9] : List Int).getD a 0)
      0 3 6 3 1 1) = [2, 0, 0, 4, 5, 6, 8, 9] ∧
    cpu_dot ([2, 0, 0] : List Int) [4, 5, 6] [1, 9] 3 1 1 = some [8, 9] ∧
    ∃ OUT', cpu_dot ([2, 0, 0] : List Int) [4, 5, 6] [1, 9] 3 1 1 = some OUT' ∧
      (∀ i < ([2, 0, 0] : List Int).length,
        cpu_dot_mem (fun a => ([2, 0, 0, 4, 5, 6, 1, 9] : List Int).getD a 0) 0 3 6 3 1 1 (0 + i)
          = ([2, 0, 0] : List Int).getD i 0) ∧
      (∀ i < ([4, 5, 6] : List Int).length,
        cpu_dot_mem (fun a => ([2, 0, 0, 4, 5, 6, 1, 9] : List Int).getD a 0) 0 3 6 3 1 1 (3 + i)
          = ([4, 5, 6] : List Int).getD i 0) ∧
      (∀ j < ([1, 9] : List Int).length,
        cpu_dot_mem (fun a => ([2, 0, 0, 4, 5, 6, 1, 9] : List Int).getD a 0) 0 3 6 3 1 1 (6 + j)
          = OUT'.getD j 0) :=
  ⟨by decide, by decide,
    (cpu_dot_frame (fun a => ([2, 0, 0, 4, 5, 6, 1, 9] : List Int).getD a 0) 0 3 6
      [2, 0, 0] [4, 5, 6] [1, 9] 3 1 1).2.2.2 (by decide) (by decide) (by decide) (by decide)
      (by decide) (by decide) (by decide) (by decide)⟩

/-- C8, as stated, fails: on the grid of 65536 columns and 65537 rows the
positions `(0, 0)` and `(0, 65536)` are distinct and the kernel computes the
same cell index, `0`, for both, because `65536 * 65536` is `0` in `uint32_t`. -/
theorem OUT_index_collision :
    (uint2.mk 0 0) ∈ metal.gridPositions 65536 65537 ∧
    (uint2.mk 0 65536) ∈ metal.gridPositions 65536 65537 ∧
    uint2.mk 0 0 ≠ uint2.mk 0 65536 ∧
    msl.dot.OUT_index 65536 (uint2.mk 0 0) = 0 ∧
    msl.dot.OUT_index 65536 (uint2.mk 0 65536) = 0 :=
  ⟨(mem_gridPositions _ _ _).2 ⟨by decide, by decide⟩,
    (mem_gridPositions _ _ _).2 ⟨by decide, by decide⟩, by decide, by decide, by decide⟩

/-- C8, amended: when `OUT_rows * OUT_cols ≤ 2 ^ 32`, the cell index the kernel
writes maps the positions of the grid `(OUT_cols, OUT_rows)` one-to-one onto
`[0, OUT_rows * OUT_cols)`; every position occurs once in an execution order;
and with buffers of at least the sizes the dimensions ask, any two execution
orders return the same `OUT`. -/
theorem one_invocation_per_cell {α : Type} [Zero α] [Add α] [Mul α] (order₁ order₂ : List uint2)
    (A B OUT : List α) (k m n : Nat)
    (h₁ : metal.IsOrder order₁ m n) (h₂ : metal.IsOrder order₂ m n)
    (hA : m * k ≤ A.length) (hB : k * n ≤ B.length) (hOUT : m * n ≤ OUT.length)
    (hOUT32 : m * n ≤ 2 ^ 32) :
    (∀ p ∈ metal.gridPositions n m, msl.dot.OUT_index n p < m * n) ∧
    (∀ p ∈ metal.gridPositions n m, ∀ q ∈ metal.gridPositions n m,
      msl.dot.OUT_index n p = msl.dot.OUT_index n q → p = q) ∧
    (∀ j < m * n, ∃! p, p ∈ metal.gridPositions n m ∧ msl.dot.OUT_index n p = j) ∧
    order₁.Nodup ∧
    ∃ OUT', metal.dot order₁ A B OUT k m n = some OUT' ∧
      metal.dot order₂ A B OUT k m n = some OUT' := by
  have hinj : ∀ p ∈ metal.gridPositions n m, ∀ q ∈ metal.gridPositions n m,
      msl.dot.OUT_index n p = msl.dot.OUT_index n q → p = q := by
    intro p hp q hq h
    obtain ⟨hpx, hpy⟩ := (mem_gridPositions n m p).1 hp
    obtain ⟨hqx, hqy⟩ := (mem_gridPositions n m q).1 hq
    rw [msl_dot_OUT_index_eq m n p hOUT32 hpx hpy, msl_dot_OUT_index_eq m n q hOUT32 hqx hqy] at h
    obtain ⟨e1, e2⟩ := rowMajor_inj n p.y p.x q.y q.x hpx hqx h
    cases p; cases q; simp_all
  refine ⟨?_, hinj, ?_, (List.Perm.nodup_iff h₁).2 (gridPositions_nodup n m), ?_⟩
  · intro p hp
    obtain ⟨hpx, hpy⟩ := (mem_gridPositions n m p).1 hp
    exact msl_dot_OUT_index_lt m n p hpx hpy
  · intro j hj
    have hn : 0 < n := by
      rcases Nat.eq_zero_or_pos n with h | h
      · subst h; simp at hj
      · exact h
    have hr : j / n < m := by rw [Nat.div_lt_iff_lt_mul hn]; exact hj
    have hc : j % n < n := Nat.mod_lt _ hn
    have hp : uint2.mk (j % n) (j / n) ∈ metal.gridPositions n m :=
      (mem_gridPositions n m _).2 ⟨hc, hr⟩
    have hidx : msl.dot.OUT_index n (uint2.mk (j % n) (j / n)) = j := by
      rw [msl_dot_OUT_index_eq m n _ hOUT32 hc hr]
      exact Nat.div_add_mod j n
    refine ⟨uint2.mk (j % n) (j / n), ⟨hp, hidx⟩, ?_⟩
    rintro q ⟨hq, hqj⟩
    exact hinj q hq _ hp (hqj.trans hidx.symm)
  · have hm₁ := mem_order order₁ m n h₁
    have hm₂ := mem_order order₂ m n h₂
    refine ⟨_, metal_dot_run order₁ A B OUT k m n (fun p hp => (hm₁ p).1 hp) hA hB hOUT, ?_⟩
    rw [metal_dot_run order₂ A B OUT k m n (fun p hp => (hm₂ p).1 hp) hA hB hOUT]
    refine congrArg some ?_
    apply applyWrites_map_perm _ _ _ _ _ (h₂.trans h₁.symm)
    · intro p hp
      obtain ⟨hpx, hpy⟩ := (hm₂ p).1 hp
      exact Nat.lt_of_lt_of_le (msl_dot_OUT_index_lt m n p hpx hpy) hOUT
    · intro p hp q hq h
      rw [hinj q ((mem_gridPositions n m q).2 ((hm₂ q).1 hq)) p
        ((mem_gridPositions n m p).2 ((hm₂ p).1 hp)) h]

/-- The amended C8 on a 2×2 grid, row-major order against its reverse. -/
theorem one_invocation_per_cell_witness :
    (∀ p ∈ metal.gridPositions 2 2, msl.dot.OUT_index 2 p < 2 * 2) ∧
    (∀ p ∈ metal.gridPositions 2 2, ∀ q ∈ metal.gridPositions 2 2,
      msl.dot.OUT_index 2 p = msl.dot.OUT_index 2 q → p = q) ∧
    (∀ j < 2 * 2, ∃! p, p ∈ metal.gridPositions 2 2 ∧ msl.dot.OUT_index 2 p = j) ∧
    (metal.gridPositions 2 2).Nodup ∧
    ∃ OUT', metal.dot (metal.gridPositions 2 2) ([1, 0, 0, 1] : List Int) [5, 6, 7, 8]
        [0, 0, 0, 0] 2 2 2 = some OUT' ∧
      metal.dot (metal.gridPositions 2 2).reverse ([1, 0, 0, 1] : List Int) [5, 6, 7, 8]
        [0, 0, 0, 0] 2 2 2 = some OUT' :=
  one_invocation_per_cell (metal.gridPositions 2 2) (metal.gridPositions 2 2).reverse
    [1, 0, 0, 1] [5, 6, 7, 8] [0, 0, 0, 0] 2 2 2 (List.Perm.refl _) (List.reverse_perm _)
    (by decide) (by decide) (by decide) (by decide)

/-- C9: under the shape precondition every access is in bounds.  If `A` has at
least `m * k` elements, `B` at least `k * n` and `OUT` at least `m * n`, every
index that `cpu_dot` and the kernel compute for `r < m`, `c < n`, `i < k` lies
inside its buffer (both as computed in machine arithmetic and exactly), and
neither `cpu_dot` nor the dispatch takes the out-of-bounds branch. -/
theorem accesses_in_bounds {α : Type} [Zero α] [Add α] [Mul α] (order : List uint2)
    (A B OUT : List α) (k m n : Nat) (horder : metal.IsOrder order m n)
    (hA : m * k ≤ A.length) (hB : k * n ≤ B.length) (hOUT : m * n ≤ OUT.length) :
    (∀ r < m, ∀ c < n,
      (n * r + c < m * n ∧ cpu_dot.OUT_index n r c < OUT.length ∧
        msl.dot.OUT_index n ⟨c, r⟩ < OUT.length) ∧
      ∀ i < k,
        (k * r + i < m * k ∧ cpu_dot.A_index k r i < A.length ∧
          msl.dot.A_index k ⟨c, r⟩ i < A.length) ∧
        (n * i + c < k * n ∧ cpu_dot.B_index n i c < B.length ∧
          msl.dot.B_index n i ⟨c, r⟩ < B.length)) ∧
    (cpu_dot A B OUT k m n).isSome ∧ (metal.dot order A B OUT k m n).isSome := by
  refine ⟨?_, ?_, ?_⟩
  · intro r hr c hc
    have hO := rowMajor_lt n m r c hr hc
    refine ⟨⟨hO, ?_, ?_⟩, ?_⟩
    · have := size_t_mul_add_le n r c
      unfold cpu_dot.OUT_index; omega
    · have := uint32_t_mul_add_le n r c
      simp only [msl.dot.OUT_index]; omega
    · intro i hi
      have hAi := rowMajor_lt k m r i hr hi
      have hBi := rowMajor_lt' n k i c hi hc
      rw [Nat.mul_comm n k] at hBi
      refine ⟨⟨hAi, ?_, ?_⟩, ⟨hBi, ?_, ?_⟩⟩
      · have := size_t_mul_add_le k r i
        unfold cpu_dot.A_index; omega
      · have := uint32_t_mul_add_le k r i
        simp only [msl.dot.A_index]; omega
      · have := size_t_mul_add_le n i c
        unfold cpu_dot.B_index; omega
      · have := uint32_t_mul_add_le n i c
        simp only [msl.dot.B_index]; omega
  · rw [cpu_dot_run A B OUT k m n hA hB hOUT]; rfl
  · rw [metal_dot_run order A B OUT k m n (fun p hp => (mem_order order m n horder p).1 hp)
      hA hB hOUT]; rfl

/-- C9 on a 2×3 by 3×2 product. -/
theorem accesses_in_bounds_witness :
    (cpu_dot ([1, 2, 3, 4, 5, 6] : List Int) [1, 0, 0, 1, 1, 1] [0, 0, 0, 0] 3 2 2).isSome ∧
    (metal.dot (metal.gridPositions 2 2) ([1, 2, 3, 4, 5, 6] : List Int) [1, 0, 0, 1, 1, 1]
      [0, 0, 0, 0] 3 2 2).isSome :=
  (accesses_in_bounds (metal.gridPositions 2 2) ([1, 2, 3, 4, 5, 6] : List Int)
    [1, 0, 0, 1, 1, 1] [0, 0, 0, 0] 3 2 2 (List.Perm.refl _) (by decide) (by decide)
    (by decide)).2

/-- C10: the 32-bit index arithmetic of the kernel agrees with the `size_t`
arithmetic of `cpu_dot` exactly while the products fit.  For dimensions
`m, k, n < 2 ^ 32` the indices `cpu_dot` computes are the exact ones, and each
family of kernel indices equals them if and only if the corresponding product
is at most `2 ^ 32`.  The dimensions of `main` (1000, 1000, 100) survive the
conversion to `uint32_t` and satisfy the three conditions. -/
theorem uint32_index_agreement (m k n : Nat) (hm : m < 2 ^ 32) (hk : k < 2 ^ 32)
    (hn : n < 2 ^ 32) :
    ((∀ r < m, ∀ i < k, cpu_dot.A_index k r i = k * r + i) ∧
      (∀ i < k, ∀ c < n, cpu_dot.B_index n i c = n * i + c) ∧
      (∀ r < m, ∀ c < n, cpu_dot.OUT_index n r c = n * r + c)) ∧
    (m * k ≤ 2 ^ 32 ↔
      ∀ r < m, ∀ i < k, ∀ x, msl.dot.A_index k ⟨x, r⟩ i = cpu_dot.A_index k r i) ∧
    (k * n ≤ 2 ^ 32 ↔
      ∀ i < k, ∀ c < n, ∀ y, msl.dot.B_index n i ⟨c, y⟩ = cpu_dot.B_index n i c) ∧
    (m * n ≤ 2 ^ 32 ↔
      ∀ r < m, ∀ c < n, msl.dot.OUT_index n ⟨c, r⟩ = cpu_dot.OUT_index n r c) ∧
    (uint32_t main.A_cols = main.A_cols ∧ uint32_t main.OUT_rows = main.OUT_rows ∧
      uint32_t main.OUT_cols = main.OUT_cols ∧
      main.OUT_rows * main.A_cols ≤ 2 ^ 32 ∧ main.A_cols * main.OUT_cols ≤ 2 ^ 32 ∧
      main.OUT_rows * main.OUT_cols ≤ 2 ^ 32) := by
  have hsq : ∀ a b c d : Nat, a < 2 ^ 32 → b < c → c < 2 ^ 32 → d < a →
      a * b + d < 2 ^ 64 := by
    intro a b c d ha hb hc hd
    have h1 : a * b ≤ (2 ^ 32 - 1) * (2 ^ 32 - 1) :=
      Nat.mul_le_mul (by omega) (by omega)
    omega
  have hsq' : ∀ a b c : Nat, a < 2 ^ 32 → b < 2 ^ 32 → c < a → a * b + c < 2 ^ 64 := by
    intro a b c ha hb hc
    have h1 : a * b ≤ (2 ^ 32 - 1) * (2 ^ 32 - 1) :=
      Nat.mul_le_mul (by omega) (by omega)
    omega
  have cA : ∀ r < m, ∀ i < k, cpu_dot.A_index k r i = k * r + i := fun r hr i hi =>
    size_t_mul_add_eq _ _ _ (hsq k r m i hk hr hm hi)
  have cB : ∀ i < k, ∀ c < n, cpu_dot.B_index n i c = n * i + c := fun i hi c hc =>
    size_t_mul_add_eq _ _ _ (hsq n i k c hn hi hk hc)
  have cO : ∀ r < m, ∀ c < n, cpu_dot.OUT_index n r c = n * r + c := fun r hr c hc =>
    size_t_mul_add_eq _ _ _ (hsq n r m c hn hr hm hc)
  have hlast : ∀ a b : Nat, 2 ^ 32 < b * a → 0 < a ∧ 0 < b ∧ a * (b - 1) + (a - 1) = b * a - 1 := by
    intro a b h
    have ha : 0 < a := Nat.pos_of_ne_zero (fun h0 => by subst h0; simp at h)
    have hb : 0 < b := Nat.pos_of_ne_zero (fun h0 => by subst h0; simp at h)
    refine ⟨ha, hb, ?_⟩
    obtain ⟨a', rfl⟩ : ∃ a', a = a' + 1 := ⟨a - 1, by omega⟩
    obtain ⟨b', rfl⟩ : ∃ b', b = b' + 1 := ⟨b - 1, by omega⟩
    have : (b' + 1) * (a' + 1) = (a' + 1) * b' + a' + 1 := by ring
    simp only [Nat.add_sub_cancel]
    omega
  have hmod : ∀ x, uint32_t x < 2 ^ 32 := fun x => Nat.mod_lt _ (by decide)
  refine ⟨⟨cA, cB, cO⟩, ⟨?_, ?_⟩, ⟨?_, ?_⟩, ⟨?_, ?_⟩, by decide⟩
  · intro h r hr i hi x
    rw [cA r hr i hi]
    have := rowMajor_lt k m r i hr hi
    exact uint32_t_mul_add_eq k r i (by omega)
  · intro h
    by_contra hgt
    obtain ⟨h1, h2, h3⟩ := hlast k m (by omega)
    have e := h (m - 1) (by omega) (k - 1) (by omega) 0
    rw [cA (m - 1) (by omega) (k - 1) (by omega), h3] at e
    have := hmod (uint32_t (k * (uint2.mk 0 (m - 1)).y) + (k - 1))
    unfold msl.dot.A_index at e
    omega
  · intro h i hi c hc y
    rw [cB i hi c hc]
    have := rowMajor_lt' n k i c hi hc
    rw [Nat.mul_comm n k] at this
    exact uint32_t_mul_add_eq n i c (by omega)
  · intro h
    by_contra hgt
    obtain ⟨h1, h2, h3⟩ := hlast n k (by omega)
    have e := h (k - 1) (by omega) (n - 1) (by omega) 0
    rw [cB (k - 1) (by omega) (n - 1) (by omega), h3] at e
    have := hmod (uint32_t (n * (k - 1)) + (uint2.mk (n - 1) 0).x)
    unfold msl.dot.B_index at e
    omega
  · intro h r hr c hc
    rw [cO r hr c hc]
    have := rowMajor_lt n m r c hr hc
    exact uint32_t_mul_add_eq n r c (by omega)
  · intro h
    by_contra hgt
    obtain ⟨h1, h2, h3⟩ := hlast n m (by omega)
    have e := h (m - 1) (by omega) (n - 1) (by omega)
    rw [cO (m - 1) (by omega) (n - 1) (by omega), h3] at e
    have := hmod (uint32_t (n * (uint2.mk (n - 1) (m - 1)).y) + (uint2.mk (n - 1) (m - 1)).x)
    unfold msl.dot.OUT_index at e
    omega

/-- C10 at the dimensions of `main`: the three products fit, so every index
the kernel computes there is the index `cpu_dot` computes. -/
theorem uint32_index_agreement_witness :
    (∀ r < main.OUT_rows, ∀ i < main.A_cols, ∀ x,
      msl.dot.A_index main.A_cols ⟨x, r⟩ i = cpu_dot.A_index main.A_cols r i) ∧
    (∀ i < main.A_cols, ∀ c < main.OUT_cols, ∀ y,
      msl.dot.B_index main.OUT_cols i ⟨c, y⟩ = cpu_dot.B_index main.OUT_cols i c) ∧
    (∀ r < main.OUT_rows, ∀ c < main.OUT_cols,
      msl.dot.OUT_index main.OUT_cols ⟨c, r⟩ = cpu_dot.OUT_index main.OUT_cols r c) :=
  have h := uint32_index_agreement main.OUT_rows main.A_cols main.OUT_cols
    (by decide) (by decide) (by decide)
  ⟨h.2.1.1 (by decide), h.2.2.1.1 (by decide), h.2.2.2.1.1 (by decide)⟩

end DotProduct
